import Mathlib

/-!
Fair two-colour resource controller (Lab7.cpp)

A shallow embedding of `FairResourceController` from `src/Lab7/Lab7.cpp`
(the Windows copy, lines 237-368; the commented-out pthread copy, lines 16-150,
has the same logic).

* The fields guarded by the critical section become a record; every C++ `int`
  is an `Int`.  The four counts (`white_count`, `black_count`, `white_waiting`,
  `black_waiting`) count callers that are inside the controller at the same
  time, so they stay far away from the 32-bit range and are not reduced.
  `turn_counter` counts admissions over time and does reach `INT_MAX` (two
  overlapping holders of one colour are enough), so `turn_counter++` is the
  32-bit two's-complement increment `wrapInt32 (turn_counter + 1)`.
* `CanAccess`, the body of `RequestAccess` and `ReleaseAccess` are pure
  functions on that record.  The lock and the condition variable are
  represented by atomicity: one step of the transition system is one
  uninterrupted run under the critical section.
* A blocked caller is a caller whose `CanAccess` test failed; it changes nothing
  until a later test succeeds, so the wait loop contributes the two steps
  `Arrive` (line 308) and `Admit` (lines 311-331).
-/

namespace Lab7

/-- The two colours of `enum class ThreadColor`. -/
inductive ThreadColor where
  | White
  | Black
  deriving DecidableEq, Repr

/-- The data members of `class FairResourceController` (lines 242-251). -/
structure FairResourceController where
  white_count : Int
  black_count : Int
  white_waiting : Int
  black_waiting : Int
  current_turn_color : ThreadColor
  has_turn : Bool
  turn_counter : Int
  max_per_turn : Int
  deriving DecidableEq, Repr

namespace FairResourceController

/-- The constructor (lines 288-292) together with the default member
initialisers (lines 242-250). -/
def init (max_threads_per_turn : Int) : FairResourceController :=
  { white_count := 0
    black_count := 0
    white_waiting := 0
    black_waiting := 0
    current_turn_color := ThreadColor.White
    has_turn := false
    turn_counter := 0
    max_per_turn := max_threads_per_turn }

/-- `CanAccess` (lines 254-285). -/
def CanAccess (s : FairResourceController) (color : ThreadColor) : Bool :=
  let is_white := decide (color = ThreadColor.White)
  let my_active := if is_white then s.white_count else s.black_count
  let other_active := if is_white then s.black_count else s.white_count
  let other_waiting := if is_white then s.black_waiting else s.white_waiting
  if other_active > 0 then
    false
  else if my_active = 0 then
    if !s.has_turn || decide (s.current_turn_color = color) then
      true
    else if other_waiting = 0 then
      true
    else
      false
  else if s.turn_counter >= s.max_per_turn ∧ other_waiting > 0 then
    false
  else
    true

/-- The value a 32-bit `int` holds after an arithmetic result `x`: reduction
modulo `2^32` into `[-2^31, 2^31)`, so that `INT_MAX + 1` is `INT_MIN`.  The C++
standard leaves signed overflow undefined; this is what the compiled increment
does on two's-complement hardware. -/
def wrapInt32 (x : Int) : Int :=
  (x + 2147483648) % 4294967296 - 2147483648

/-- Entry of `RequestAccess` (lines 305-308): the caller is counted as waiting. -/
def enterWaiting (s : FairResourceController) (color : ThreadColor) :
    FairResourceController :=
  let is_white := decide (color = ThreadColor.White)
  if is_white then { s with white_waiting := s.white_waiting + 1 }
  else { s with black_waiting := s.black_waiting + 1 }

/-- The part of `RequestAccess` after the wait loop (lines 315-331): the
counters are moved from waiting to active and the turn is updated. -/
def grantAccess (s : FairResourceController) (color : ThreadColor) :
    FairResourceController :=
  let is_white := decide (color = ThreadColor.White)
  let s1 : FairResourceController :=
    if is_white then
      { s with white_waiting := s.white_waiting - 1, white_count := s.white_count + 1 }
    else
      { s with black_waiting := s.black_waiting - 1, black_count := s.black_count + 1 }
  if !s1.has_turn || decide (s1.current_turn_color ≠ color) then
    { s1 with current_turn_color := color, has_turn := true, turn_counter := 1 }
  else
    { s1 with turn_counter := wrapInt32 (s1.turn_counter + 1) }

/-- `RequestAccess` (lines 302-337) for a caller that is not put to sleep:
`some` of the state at return when the first test of the wait loop succeeds,
`none` when the caller blocks in `SleepConditionVariableCS`. -/
def RequestAccess (s : FairResourceController) (color : ThreadColor) :
    Option FairResourceController :=
  let s1 := enterWaiting s color
  if CanAccess s1 color then some (grantAccess s1 color) else none

/-- `ReleaseAccess` (lines 339-367). -/
def ReleaseAccess (s : FairResourceController) (color : ThreadColor) :
    FairResourceController :=
  let is_white := decide (color = ThreadColor.White)
  let s1 : FairResourceController :=
    if is_white then { s with white_count := s.white_count - 1 }
    else { s with black_count := s.black_count - 1 }
  if (is_white && decide (s1.white_count = 0)) || (!is_white && decide (s1.black_count = 0)) then
    let other_waiting := if is_white then s1.black_waiting else s1.white_waiting
    if other_waiting > 0 then
      { s1 with
        current_turn_color := if is_white then ThreadColor.Black else ThreadColor.White
        has_turn := true
        turn_counter := 0 }
    else
      { s1 with has_turn := false }
  else
    s1

end FairResourceController

open FairResourceController

/-- The opposite colour. -/
def other : ThreadColor → ThreadColor
  | ThreadColor.White => ThreadColor.Black
  | ThreadColor.Black => ThreadColor.White

/-- Number of active holders of a colour (`white_count` / `black_count`). -/
def activeCount (s : FairResourceController) : ThreadColor → Int
  | ThreadColor.White => s.white_count
  | ThreadColor.Black => s.black_count

/-- Number of waiters of a colour (`white_waiting` / `black_waiting`). -/
def waitingCount (s : FairResourceController) : ThreadColor → Int
  | ThreadColor.White => s.white_waiting
  | ThreadColor.Black => s.black_waiting

/-- The atomic steps of the controller: a caller enters `RequestAccess`, a
waiting caller leaves the wait loop, a holder runs `ReleaseAccess`. -/
inductive Action where
  | Arrive (c : ThreadColor)
  | Admit (c : ThreadColor)
  | Release (c : ThreadColor)
  deriving DecidableEq, Repr

/-- One atomic step.  `Admit c` is enabled for a waiting caller of `c` whose
`CanAccess` test succeeds; `Release c` is enabled for a caller admitted before,
that is when `c` has an active holder. -/
def step (s : FairResourceController) : Action → Option FairResourceController
  | Action.Arrive c => some (enterWaiting s c)
  | Action.Admit c =>
    if 0 < waitingCount s c ∧ CanAccess s c = true then some (grantAccess s c) else none
  | Action.Release c =>
    if 0 < activeCount s c then some (ReleaseAccess s c) else none

/-- States reachable from the constructor's state `init m`. -/
inductive Reachable (m : Int) : FairResourceController → Prop where
  | init : Reachable m (FairResourceController.init m)
  | step {s t : FairResourceController} (a : Action) :
      Reachable m s → step s a = some t → Reachable m t

/-- Runs a list of steps and returns every state visited, the start included;
`none` when some step is not enabled. -/
def runTrace (s : FairResourceController) : List Action → Option (List FairResourceController)
  | [] => some [s]
  | a :: as =>
    match step s a with
    | none => none
    | some t =>
      match runTrace t as with
      | none => none
      | some tr => some (s :: tr)

/-- Runs a list of steps and returns the final state; `none` when some step is
not enabled. -/
def exec (s : FairResourceController) : List Action → Option FairResourceController
  | [] => some s
  | a :: as =>
    match step s a with
    | none => none
    | some t => exec t as

/-- Iterates `RequestAccess` for `n` callers of one colour, with nothing in
between; `none` as soon as one of them blocks. -/
def requestN (s : FairResourceController) (c : ThreadColor) : Nat → Option FairResourceController
  | 0 => some s
  | n + 1 =>
    match RequestAccess s c with
    | none => none
    | some t => requestN t c n

/-- The admission predicate in the words of the specification: rule 1 denies
when the opposite colour has an active holder; rule 2, for a colour with zero
active holders, grants when no turn is active, or the turn belongs to this
colour, or the opposite colour has zero waiters; rule 3, for a colour that
already has active holders, denies only when the run length has reached the cap
and the opposite colour has at least one waiter. -/
def admissionRule (s : FairResourceController) (c : ThreadColor) : Bool :=
  if 0 < activeCount s (other c) then
    false
  else if activeCount s c = 0 then
    decide (s.has_turn = false ∨ s.current_turn_color = c ∨ waitingCount s (other c) = 0)
  else
    !decide (s.max_per_turn ≤ s.turn_counter ∧ 1 ≤ waitingCount s (other c))

/-- How many more callers of colour `c` can be admitted while the opposite
colour keeps waiting and is not admitted. -/
def budget (s : FairResourceController) (c : ThreadColor) : Int :=
  if 0 < activeCount s c then
    (if s.turn_counter < s.max_per_turn then s.max_per_turn - s.turn_counter else 0)
  else if 0 < activeCount s (other c) then
    s.max_per_turn
  else if s.has_turn = true ∧ s.current_turn_color = other c then
    0
  else
    s.max_per_turn

/-- One test of the wait loop of `RequestAccess` (line 311) by a waiting caller:
when `CanAccess` holds the caller leaves the loop and lines 315-331 run,
otherwise it sleeps in `SleepConditionVariableCS` and the state is unchanged. -/
def waitLoopTest (s : FairResourceController) (color : ThreadColor) :
    FairResourceController :=
  if CanAccess s color then grantAccess s color else s

/-- The `return` statements of `CanAccess`, in source order. -/
inductive AccessBranch where
  | otherActive
  | turnFreeOrMine
  | steal
  | turnOfOther
  | capReached
  | joinRun
  deriving DecidableEq, Repr

/-- `CanAccess` (lines 254-285) together with the `return` statement that
produced the result: line 262, 269, 273, 275, 281 or 284. -/
def CanAccessBranch (s : FairResourceController) (color : ThreadColor) :
    Bool × AccessBranch :=
  let is_white := decide (color = ThreadColor.White)
  let my_active := if is_white then s.white_count else s.black_count
  let other_active := if is_white then s.black_count else s.white_count
  let other_waiting := if is_white then s.black_waiting else s.white_waiting
  if other_active > 0 then
    (false, AccessBranch.otherActive)
  else if my_active = 0 then
    if !s.has_turn || decide (s.current_turn_color = color) then
      (true, AccessBranch.turnFreeOrMine)
    else if other_waiting = 0 then
      (true, AccessBranch.steal)
    else
      (false, AccessBranch.turnOfOther)
  else if s.turn_counter >= s.max_per_turn ∧ other_waiting > 0 then
    (false, AccessBranch.capReached)
  else
    (true, AccessBranch.joinRun)

/-- The situation right after a forced switch away from colour `c`: nobody holds
the resource, the turn belongs to the opposite colour and that colour has a
waiter. -/
structure SwitchedFrom (c : ThreadColor) (u : FairResourceController) : Prop where
  mine : activeCount u c = 0
  theirs : activeCount u (other c) = 0
  turn_on : u.has_turn = true
  turn_other : u.current_turn_color = other c
  waiter : 1 ≤ waitingCount u (other c)

/-- The inductive invariant of the controller. -/
structure Inv (m : Int) (s : FairResourceController) : Prop where
  max_eq : s.max_per_turn = m
  white_nonneg : 0 ≤ s.white_count
  black_nonneg : 0 ≤ s.black_count
  white_waiting_nonneg : 0 ≤ s.white_waiting
  black_waiting_nonneg : 0 ≤ s.black_waiting
  excl : s.white_count = 0 ∨ s.black_count = 0
  white_owns : 0 < s.white_count →
    s.has_turn = true ∧ s.current_turn_color = ThreadColor.White
  black_owns : 0 < s.black_count →
    s.has_turn = true ∧ s.current_turn_color = ThreadColor.Black
  counter_int32 : -2147483648 ≤ s.turn_counter ∧ s.turn_counter < 2147483648
  fresh_turn : s.has_turn = true → activeCount s s.current_turn_color = 0 →
    s.turn_counter = 0 ∧ 0 < waitingCount s s.current_turn_color

theorem inv_init (m : Int) : Inv m (FairResourceController.init m) := by
  constructor <;> simp [FairResourceController.init, activeCount, waitingCount]

theorem inv_step {m : Int} {s t : FairResourceController} (a : Action)
    (hs : Inv m s) (h : step s a = some t) : Inv m t := by
  obtain ⟨h1, h2, h3, h4, h5, h6, h7, h8, hr, h9⟩ := hs
  obtain ⟨wc, bc, ww, bw, tcol, ht, tc, mx⟩ := s
  dsimp only at h1 h2 h3 h4 h5 h6 h7 h8 hr h9
  cases a with
  | Arrive c =>
    cases c <;> cases tcol <;> cases ht <;>
      simp [step, enterWaiting] at h <;>
      subst h <;>
      simp [activeCount, waitingCount] at h7 h8 h9 <;>
      constructor <;> simp [activeCount, waitingCount] <;> omega
  | Admit c =>
    cases c <;> cases tcol <;> cases ht <;>
      simp [step, grantAccess, CanAccess, waitingCount] at h <;>
      obtain ⟨hg, rfl⟩ := h <;>
      simp [activeCount, waitingCount] at h7 h8 h9 <;>
      constructor <;> simp [activeCount, waitingCount, wrapInt32] <;> omega
  | Release c =>
    cases c <;> cases tcol <;> cases ht <;>
      simp [step, ReleaseAccess, activeCount] at h <;>
      obtain ⟨hg, rfl⟩ := h <;>
      simp [activeCount, waitingCount] at h7 h8 h9 <;>
      constructor <;> (try split_ifs) <;> simp [activeCount, waitingCount] <;> omega

theorem reachable_inv {m : Int} {s : FairResourceController} (h : Reachable m s) :
    Inv m s := by
  induction h with
  | init => exact inv_init m
  | step a _ hst ih => exact inv_step a ih hst

set_option maxHeartbeats 1000000 in
/-- Under the invariant, with a positive 32-bit limit and a waiter of the
opposite colour, a step other than an admission of the opposite colour never
raises the budget of `c`, and an admission of `c` uses one unit of it. -/
theorem budget_step {m : Int} {s t : FairResourceController} (c : ThreadColor) (a : Action)
    (hs : Inv m s) (hm : 1 ≤ m) (hm32 : m < 2147483648)
    (hw : 0 < waitingCount s (other c))
    (h : step s a = some t) (hne : a ≠ Action.Admit (other c)) :
    budget t c + (if a = Action.Admit c then 1 else 0) ≤ budget s c := by
  obtain ⟨h1, h2, h3, h4, h5, h6, h7, h8, hr32, h9⟩ := hs
  obtain ⟨wc, bc, ww, bw, tcol, ht, tc, mx⟩ := s
  dsimp only at h1 h2 h3 h4 h5 h6 h7 h8 hr32 h9
  subst h1
  cases a with
  | Arrive d =>
    cases d <;> cases c <;> cases tcol <;> cases ht <;>
      simp [step, enterWaiting] at h <;>
      subst h <;>
      simp [activeCount, waitingCount, other] at h7 h8 h9 hw <;>
      simp [budget, activeCount, waitingCount, other]
  | Admit d =>
    cases d <;> cases c <;> simp [other] at hne <;> cases tcol <;> cases ht <;>
      simp [step, grantAccess, CanAccess, waitingCount] at h <;>
      obtain ⟨hg, rfl⟩ := h <;>
      simp [activeCount, waitingCount, other] at h7 h8 h9 hw <;>
      simp [budget, activeCount, waitingCount, other, wrapInt32] <;>
      split_ifs at hg ⊢ <;> omega
  | Release d =>
    cases d <;> cases c <;> cases tcol <;> cases ht <;>
      simp [step, ReleaseAccess, activeCount] at h <;>
      obtain ⟨hg, h⟩ := h <;>
      split_ifs at h <;> subst h <;>
      simp [activeCount, waitingCount, other] at h7 h8 h9 hw <;>
      simp [budget, activeCount, waitingCount, other] <;>
      split_ifs <;> omega

/-- Under the invariant, with a positive limit and a run length that is not
negative, the budget is at most the limit. -/
theorem budget_le_max {m : Int} {s : FairResourceController} (c : ThreadColor)
    (hs : Inv m s) (hm : 1 ≤ m) (h0 : 0 ≤ s.turn_counter) : budget s c ≤ m := by
  obtain ⟨h1, h2, h3, h4, h5, h6, h7, h8, hr32, h9⟩ := hs
  obtain ⟨wc, bc, ww, bw, tcol, ht, tc, mx⟩ := s
  dsimp only at h1 h2 h3 h4 h5 h6 h7 h8 hr32 h9 h0
  subst h1
  cases c <;> simp only [budget, activeCount, other] <;> split_ifs <;> omega

/-- Along a run in which the opposite colour always has a waiter and is never
admitted, the admissions of `c` are paid from the budget of the first state. -/
theorem count_admit_le_budget {m : Int} (c : ThreadColor) (hm : 1 ≤ m)
    (hm32 : m < 2147483648) (acts : List Action) :
    ∀ (s : FairResourceController) (tr : List FairResourceController),
      Inv m s → runTrace s acts = some tr →
      (∀ u ∈ tr, 0 < waitingCount u (other c)) →
      Action.Admit (other c) ∉ acts →
      ((acts.count (Action.Admit c) : Nat) : Int) ≤ budget s c := by
  induction acts with
  | nil =>
    intro s tr hs _ _ _
    have h0 : 0 ≤ budget s c := by
      obtain ⟨wc, bc, ww, bw, tcol, ht, tc, mx⟩ := s
      have hmx := hs.max_eq
      dsimp only at hmx
      subst hmx
      simp only [budget]
      split_ifs <;> omega
    simpa using h0
  | cons a as ih =>
    intro s tr hs hrun hwait hno
    cases hst : step s a with
    | none => simp [runTrace, hst] at hrun
    | some t =>
      cases hrest : runTrace t as with
      | none => simp [runTrace, hst, hrest] at hrun
      | some tr1 =>
        simp only [runTrace, hst, hrest, Option.some.injEq] at hrun
        subst hrun
        have hne : a ≠ Action.Admit (other c) := by
          intro h
          exact hno (by simp [h])
        have hno1 : Action.Admit (other c) ∉ as := by
          intro h
          exact hno (List.mem_cons_of_mem _ h)
        have hw0 : 0 < waitingCount s (other c) := hwait s (List.mem_cons_self _ _)
        have hwait1 : ∀ u ∈ tr1, 0 < waitingCount u (other c) :=
          fun u hu => hwait u (List.mem_cons_of_mem _ hu)
        have hstep := budget_step c a hs hm hm32 hw0 hst hne
        have hrec := ih t tr1 (inv_step a hs hst) hrest hwait1 hno1
        rw [List.count_cons]
        by_cases hac : a = Action.Admit c
        · subst hac
          simp only [if_true] at hstep
          simp only [beq_self_eq_true, if_true]
          push_cast
          omega
        · simp only [hac, if_false] at hstep
          have hb : (a == Action.Admit c) = false := by simpa using hac
          simp only [hb]
          simp only [Bool.false_eq_true, if_false, Nat.add_zero]
          omega

theorem reachable_exec {m : Int} (as : List Action) :
    ∀ {s t : FairResourceController}, Reachable m s → exec s as = some t → Reachable m t := by
  induction as with
  | nil =>
    intro s t hs h
    simp only [exec, Option.some.injEq] at h
    exact h ▸ hs
  | cons a as ih =>
    intro s t hs h
    simp only [exec] at h
    cases hst : step s a with
    | none => simp [hst] at h
    | some u =>
      rw [hst] at h
      exact ih (Reachable.step a hs hst) h

theorem wrapInt32_wrapInt32_add (x k : Int) :
    wrapInt32 (wrapInt32 x + k) = wrapInt32 (x + k) := by
  simp only [wrapInt32]
  omega

theorem wrapInt32_of_int32 (x : Int) (h1 : -2147483648 ≤ x) (h2 : x < 2147483648) :
    wrapInt32 x = x := by
  simp only [wrapInt32]
  omega

/-- One more round of the overlapping pattern: a second White caller is
admitted and the earlier holder releases.  Nobody of the other colour is
present, so the request is granted whatever the run length is. -/
theorem overlap_round (m x : Int) :
    exec
        { white_count := 1, black_count := 0, white_waiting := 0, black_waiting := 0,
          current_turn_color := ThreadColor.White, has_turn := true, turn_counter := x,
          max_per_turn := m }
        [Action.Arrive ThreadColor.White, Action.Admit ThreadColor.White,
          Action.Release ThreadColor.White] =
      some
        { white_count := 1, black_count := 0, white_waiting := 0, black_waiting := 0,
          current_turn_color := ThreadColor.White, has_turn := true,
          turn_counter := wrapInt32 (x + 1), max_per_turn := m } := by
  simp [exec, step, enterWaiting, grantAccess, ReleaseAccess, CanAccess, waitingCount,
    activeCount]

/-- With one standing White holder and no Black caller every run length is
reachable: after `n + 1` admissions `turn_counter` holds the 32-bit value of
`n + 1`. -/
theorem reachable_run_length (m : Int) (n : Nat) :
    Reachable m
      { white_count := 1, black_count := 0, white_waiting := 0, black_waiting := 0,
        current_turn_color := ThreadColor.White, has_turn := true,
        turn_counter := wrapInt32 ((n : Int) + 1), max_per_turn := m } := by
  induction n with
  | zero =>
    have h : exec (FairResourceController.init m)
        [Action.Arrive ThreadColor.White, Action.Admit ThreadColor.White] =
        some
          { white_count := 1, black_count := 0, white_waiting := 0, black_waiting := 0,
            current_turn_color := ThreadColor.White, has_turn := true,
            turn_counter := wrapInt32 (((0 : Nat) : Int) + 1), max_per_turn := m } := by
      simp [exec, step, enterWaiting, grantAccess, CanAccess, waitingCount,
        FairResourceController.init, wrapInt32]
    exact reachable_exec _ Reachable.init h
  | succ k ih =>
    have h := overlap_round m (wrapInt32 ((k : Int) + 1))
    rw [wrapInt32_wrapInt32_add] at h
    have e : ((k + 1 : Nat) : Int) + 1 = (k : Int) + 1 + 1 := by push_cast; ring
    rw [e]
    exact reachable_exec _ ih h

/-- The state with one White holder and `turn_counter = INT_MAX` is reachable. -/
theorem reachable_int_max (m : Int) :
    Reachable m
      { white_count := 1, black_count := 0, white_waiting := 0, black_waiting := 0,
        current_turn_color := ThreadColor.White, has_turn := true,
        turn_counter := 2147483647, max_per_turn := m } := by
  have h := reachable_run_length m 2147483646
  have e : wrapInt32 (((2147483646 : Nat) : Int) + 1) = 2147483647 := by decide
  rw [e] at h
  exact h

/-- The state with one White holder and `turn_counter = INT_MIN` is reachable. -/
theorem reachable_int_min (m : Int) :
    Reachable m
      { white_count := 1, black_count := 0, white_waiting := 0, black_waiting := 0,
        current_turn_color := ThreadColor.White, has_turn := true,
        turn_counter := -2147483648, max_per_turn := m } := by
  have h := reachable_run_length m 2147483647
  have e : wrapInt32 (((2147483647 : Nat) : Int) + 1) = -2147483648 := by decide
  rw [e] at h
  exact h

/-- C1. Mutual exclusion: in every state reachable from the constructor's state
by `Arrive`, `Admit` and `Release` steps, at most one colour has active
holders: `white_count = 0` or `black_count = 0`. -/
theorem mutual_exclusion (m : Int) (s : FairResourceController) (h : Reachable m s) :
    s.white_count = 0 ∨ s.black_count = 0 :=
  (reachable_inv h).excl

/-- C1, at the state reached with limit 3 after two White callers were admitted
and a Black caller arrived. -/
theorem mutual_exclusion_witness :
    Reachable 3
        { white_count := 2, black_count := 0, white_waiting := 0, black_waiting := 1,
          current_turn_color := ThreadColor.White, has_turn := true, turn_counter := 2,
          max_per_turn := 3 } ∧
      ((2 : Int) = 0 ∨ (0 : Int) = 0) :=
  have hr : Reachable 3
      { white_count := 2, black_count := 0, white_waiting := 0, black_waiting := 1,
        current_turn_color := ThreadColor.White, has_turn := true, turn_counter := 2,
        max_per_turn := 3 } :=
    reachable_exec
      [Action.Arrive ThreadColor.White, Action.Admit ThreadColor.White,
        Action.Arrive ThreadColor.White, Action.Admit ThreadColor.White,
        Action.Arrive ThreadColor.Black]
      Reachable.init (by decide)
  ⟨hr, mutual_exclusion 3 _ hr⟩

/-- C3. For every state and colour, `CanAccess` equals the three-rule admission
predicate of the specification. -/
theorem CanAccess_eq_admissionRule (s : FairResourceController) (c : ThreadColor) :
    CanAccess s c = admissionRule s c := by
  obtain ⟨wc, bc, ww, bw, tcol, ht, tc, mx⟩ := s
  cases c <;> cases tcol <;> cases ht <;>
    simp only [CanAccess, admissionRule, activeCount, waitingCount, other] <;>
    split_ifs <;> simp_all <;> omega

/-- Effect of an admission (lines 315-331) on every field the turn logic reads:
the counts of `c` move by one, the opposite colour's counts stay, and the turn
is either claimed with run length 1 or kept with the 32-bit increment of the
run length. -/
theorem admission_postcondition_int32 (s t : FairResourceController) (c : ThreadColor)
    (h : step s (Action.Admit c) = some t) :
    waitingCount t c = waitingCount s c - 1 ∧
      activeCount t c = activeCount s c + 1 ∧
      (s.has_turn = false ∨ s.current_turn_color = other c →
        t.current_turn_color = c ∧ t.has_turn = true ∧ t.turn_counter = 1) ∧
      (¬ (s.has_turn = false ∨ s.current_turn_color = other c) →
        t.current_turn_color = s.current_turn_color ∧ t.has_turn = s.has_turn ∧
          t.turn_counter = wrapInt32 (s.turn_counter + 1)) ∧
      activeCount t (other c) = activeCount s (other c) ∧
      waitingCount t (other c) = waitingCount s (other c) := by
  obtain ⟨wc, bc, ww, bw, tcol, ht, tc, mx⟩ := s
  cases c <;> cases tcol <;> cases ht <;>
    simp [step, grantAccess, waitingCount] at h <;>
    obtain ⟨_, rfl⟩ := h <;>
    simp [activeCount, waitingCount, other]

/-- C4 fails on the code at `turn_counter = INT_MAX`.  With limit 3 the state
below is reachable (one standing White holder, `2^31 - 1` admissions, one White
arrival); the turn is active and White's, the White caller is admitted, and the
run length becomes `-2147483648` instead of `2147483647 + 1`. -/
theorem admission_increment_wraps :
    Reachable 3
        { white_count := 1, black_count := 0, white_waiting := 1, black_waiting := 0,
          current_turn_color := ThreadColor.White, has_turn := true,
          turn_counter := 2147483647, max_per_turn := 3 } ∧
      step
          { white_count := 1, black_count := 0, white_waiting := 1, black_waiting := 0,
            current_turn_color := ThreadColor.White, has_turn := true,
            turn_counter := 2147483647, max_per_turn := 3 }
          (Action.Admit ThreadColor.White) =
        some
          { white_count := 2, black_count := 0, white_waiting := 0, black_waiting := 0,
            current_turn_color := ThreadColor.White, has_turn := true,
            turn_counter := -2147483648, max_per_turn := 3 } ∧
      (-2147483648 : Int) ≠ 2147483647 + 1 :=
  ⟨reachable_exec [Action.Arrive ThreadColor.White] (reachable_int_max 3) (by decide),
    by decide, by decide⟩

/-- C5. Forced switch: when colour `c` has exactly one active holder and the
opposite colour has at least one waiter, `ReleaseAccess(c)` yields a state with
`activeCount[c] = 0`, the turn owned by the opposite colour, the turn active and
run length 0. -/
theorem forced_switch (s : FairResourceController) (c : ThreadColor)
    (h1 : activeCount s c = 1) (h2 : 1 ≤ waitingCount s (other c)) :
    activeCount (ReleaseAccess s c) c = 0 ∧
      (ReleaseAccess s c).current_turn_color = other c ∧
      (ReleaseAccess s c).has_turn = true ∧
      (ReleaseAccess s c).turn_counter = 0 := by
  obtain ⟨wc, bc, ww, bw, tcol, ht, tc, mx⟩ := s
  cases c with
  | White =>
    simp only [activeCount, waitingCount, other] at h1 h2
    have h3 : 0 < bw := by omega
    simp [ReleaseAccess, activeCount, other, h1, h3]
  | Black =>
    simp only [activeCount, waitingCount, other] at h1 h2
    have h3 : 0 < ww := by omega
    simp [ReleaseAccess, activeCount, other, h1, h3]

/-- C5, at the state where one White caller holds the resource and one Black
caller waits. -/
theorem forced_switch_witness :
    activeCount
        (ReleaseAccess
          { white_count := 1, black_count := 0, white_waiting := 0, black_waiting := 1,
            current_turn_color := ThreadColor.White, has_turn := true, turn_counter := 1,
            max_per_turn := 3 }
          ThreadColor.White)
        ThreadColor.White = 0 ∧
      (ReleaseAccess
          { white_count := 1, black_count := 0, white_waiting := 0, black_waiting := 1,
            current_turn_color := ThreadColor.White, has_turn := true, turn_counter := 1,
            max_per_turn := 3 }
          ThreadColor.White).current_turn_color = ThreadColor.Black ∧
      (ReleaseAccess
          { white_count := 1, black_count := 0, white_waiting := 0, black_waiting := 1,
            current_turn_color := ThreadColor.White, has_turn := true, turn_counter := 1,
            max_per_turn := 3 }
          ThreadColor.White).has_turn = true ∧
      (ReleaseAccess
          { white_count := 1, black_count := 0, white_waiting := 0, black_waiting := 1,
            current_turn_color := ThreadColor.White, has_turn := true, turn_counter := 1,
            max_per_turn := 3 }
          ThreadColor.White).turn_counter = 0 :=
  forced_switch
    { white_count := 1, black_count := 0, white_waiting := 0, black_waiting := 1,
      current_turn_color := ThreadColor.White, has_turn := true, turn_counter := 1,
      max_per_turn := 3 }
    ThreadColor.White (by decide) (by decide)

theorem request_some_of_canAccess (s : FairResourceController) (c : ThreadColor)
    (h : CanAccess (enterWaiting s c) c = true) :
    RequestAccess s c = some (grantAccess (enterWaiting s c) c) := by
  simp [RequestAccess, h]

/-- C6. Idle correctness: in a reachable state where colour `c` has exactly one
active holder and the opposite colour has zero waiters, `ReleaseAccess(c)`
yields a state with `has_turn = false` in which `CanAccess` is true for both
colours, and the next `RequestAccess` of either colour returns without blocking
with that caller admitted: its colour has one active holder and owns the turn
with run length 1, its waiting count is back to what it was, and the other
colour still has no holder. -/
theorem idle_correctness (m : Int) (s : FairResourceController) (c : ThreadColor)
    (hr : Reachable m s) (h1 : activeCount s c = 1) (h2 : waitingCount s (other c) = 0) :
    (ReleaseAccess s c).has_turn = false ∧
      CanAccess (ReleaseAccess s c) ThreadColor.White = true ∧
      CanAccess (ReleaseAccess s c) ThreadColor.Black = true ∧
      ∀ x : ThreadColor, ∃ t,
        RequestAccess (ReleaseAccess s c) x = some t ∧
          activeCount t x = 1 ∧ activeCount t (other x) = 0 ∧
          waitingCount t x = waitingCount s x ∧
          waitingCount t (other x) = waitingCount s (other x) ∧
          t.current_turn_color = x ∧ t.has_turn = true ∧ t.turn_counter = 1 ∧
          t.max_per_turn = s.max_per_turn := by
  have hi := reachable_inv hr
  obtain ⟨-, -, -, -, -, h6, -, -, -, -⟩ := hi
  obtain ⟨wc, bc, ww, bw, tcol, ht, tc, mx⟩ := s
  cases c with
  | White =>
    simp only [activeCount, waitingCount, other] at h1 h2 h6
    have h3 : bc = 0 := by omega
    subst h1 h2 h3
    refine ⟨by simp [ReleaseAccess], by simp [ReleaseAccess, CanAccess],
      by simp [ReleaseAccess, CanAccess], ?_⟩
    intro x
    cases x
    · refine ⟨_, request_some_of_canAccess _ _ ?_, ?_⟩
      · simp [ReleaseAccess, CanAccess, enterWaiting]
      · simp [ReleaseAccess, grantAccess, enterWaiting, activeCount, waitingCount, other]
    · refine ⟨_, request_some_of_canAccess _ _ ?_, ?_⟩
      · simp [ReleaseAccess, CanAccess, enterWaiting]
      · simp [ReleaseAccess, grantAccess, enterWaiting, activeCount, waitingCount, other]
  | Black =>
    simp only [activeCount, waitingCount, other] at h1 h2 h6
    have h3 : wc = 0 := by omega
    subst h1 h2 h3
    refine ⟨by simp [ReleaseAccess], by simp [ReleaseAccess, CanAccess],
      by simp [ReleaseAccess, CanAccess], ?_⟩
    intro x
    cases x
    · refine ⟨_, request_some_of_canAccess _ _ ?_, ?_⟩
      · simp [ReleaseAccess, CanAccess, enterWaiting]
      · simp [ReleaseAccess, grantAccess, enterWaiting, activeCount, waitingCount, other]
    · refine ⟨_, request_some_of_canAccess _ _ ?_, ?_⟩
      · simp [ReleaseAccess, CanAccess, enterWaiting]
      · simp [ReleaseAccess, grantAccess, enterWaiting, activeCount, waitingCount, other]

/-- C6, at the state reached with limit 3 after one White caller was admitted:
after its release the turn is idle and a Black request returns the state in
which the Black caller holds the resource. -/
theorem idle_correctness_witness :
    (ReleaseAccess
        { white_count := 1, black_count := 0, white_waiting := 0, black_waiting := 0,
          current_turn_color := ThreadColor.White, has_turn := true, turn_counter := 1,
          max_per_turn := 3 }
        ThreadColor.White).has_turn = false ∧
      RequestAccess
          (ReleaseAccess
            { white_count := 1, black_count := 0, white_waiting := 0, black_waiting := 0,
              current_turn_color := ThreadColor.White, has_turn := true, turn_counter := 1,
              max_per_turn := 3 }
            ThreadColor.White)
          ThreadColor.Black =
        some
          { white_count := 0, black_count := 1, white_waiting := 0, black_waiting := 0,
            current_turn_color := ThreadColor.Black, has_turn := true, turn_counter := 1,
            max_per_turn := 3 } :=
  have h := idle_correctness 3
    { white_count := 1, black_count := 0, white_waiting := 0, black_waiting := 0,
      current_turn_color := ThreadColor.White, has_turn := true, turn_counter := 1,
      max_per_turn := 3 }
    ThreadColor.White
    (reachable_exec [Action.Arrive ThreadColor.White, Action.Admit ThreadColor.White]
      Reachable.init (by decide))
    (by decide) (by decide)
  ⟨h.1, by decide⟩

/-- C7. In every reachable state, if `has_turn` is false then `white_count = 0`
and `black_count = 0`. -/
theorem no_turn_no_holders (m : Int) (s : FairResourceController) (hr : Reachable m s)
    (h : s.has_turn = false) : s.white_count = 0 ∧ s.black_count = 0 := by
  obtain ⟨-, h2, h3, -, -, -, h7, h8, -, -⟩ := reachable_inv hr
  constructor
  · by_contra hne
    have hpos : 0 < s.white_count := by omega
    have := (h7 hpos).1
    simp [h] at this
  · by_contra hne
    have hpos : 0 < s.black_count := by omega
    have := (h8 hpos).1
    simp [h] at this

/-- C7, at the state reached with limit 3 after a Black caller was admitted and
released again. -/
theorem no_turn_no_holders_witness :
    (exec (FairResourceController.init 3)
        [Action.Arrive ThreadColor.Black, Action.Admit ThreadColor.Black,
          Action.Release ThreadColor.Black]) =
      some
        { white_count := 0, black_count := 0, white_waiting := 0, black_waiting := 0,
          current_turn_color := ThreadColor.Black, has_turn := false, turn_counter := 1,
          max_per_turn := 3 } ∧
      ((0 : Int) = 0 ∧ (0 : Int) = 0) :=
  have he : (exec (FairResourceController.init 3)
        [Action.Arrive ThreadColor.Black, Action.Admit ThreadColor.Black,
          Action.Release ThreadColor.Black]) =
      some
        { white_count := 0, black_count := 0, white_waiting := 0, black_waiting := 0,
          current_turn_color := ThreadColor.Black, has_turn := false, turn_counter := 1,
          max_per_turn := 3 } := by decide
  ⟨he, no_turn_no_holders 3 _ (reachable_exec _ Reachable.init he) rfl⟩

/-- A caller of the colour that owns the turn is admitted at once while the
opposite colour has neither holders nor waiters. -/
theorem request_uncontended (s : FairResourceController) (c : ThreadColor)
    (ha : activeCount s (other c) = 0) (hw : waitingCount s (other c) = 0)
    (ht : s.has_turn = true) (hc : s.current_turn_color = c) :
    ∃ t, RequestAccess s c = some t ∧
      activeCount t (other c) = 0 ∧ waitingCount t (other c) = 0 ∧
      t.has_turn = true ∧ t.current_turn_color = c ∧
      activeCount t c = activeCount s c + 1 ∧
      t.turn_counter = wrapInt32 (s.turn_counter + 1) := by
  obtain ⟨wc, bc, ww, bw, tcol, htn, tc, mx⟩ := s
  simp only at ht hc
  subst ht hc
  cases tcol with
  | White =>
    simp only [activeCount, waitingCount, other] at ha hw
    subst ha hw
    refine ⟨_, request_some_of_canAccess _ _ ?_, ?_⟩
    · simp [CanAccess, enterWaiting]
    · simp [grantAccess, enterWaiting, activeCount, waitingCount, other]
  | Black =>
    simp only [activeCount, waitingCount, other] at ha hw
    subst ha hw
    refine ⟨_, request_some_of_canAccess _ _ ?_, ?_⟩
    · simp [CanAccess, enterWaiting]
    · simp [grantAccess, enterWaiting, activeCount, waitingCount, other]

theorem requestN_uncontended (c : ThreadColor) (n : Nat) :
    ∀ s : FairResourceController,
      activeCount s (other c) = 0 → waitingCount s (other c) = 0 →
      s.has_turn = true → s.current_turn_color = c →
      wrapInt32 s.turn_counter = s.turn_counter →
      ∃ t, requestN s c n = some t ∧
        activeCount t c = activeCount s c + n ∧
        t.turn_counter = wrapInt32 (s.turn_counter + n) := by
  induction n with
  | zero =>
    intro s _ _ _ _ hin
    exact ⟨s, rfl, by simp, by simpa using hin.symm⟩
  | succ k ih =>
    intro s ha hw ht hc _
    obtain ⟨u, hu, ha1, hw1, ht1, hc1, hact, htc⟩ := request_uncontended s c ha hw ht hc
    have hin1 : wrapInt32 u.turn_counter = u.turn_counter := by
      rw [htc]
      simp only [wrapInt32]
      omega
    obtain ⟨t, ht2, hact2, htc2⟩ := ih u ha1 hw1 ht1 hc1 hin1
    refine ⟨t, ?_, ?_, ?_⟩
    · simp [requestN, hu, ht2]
    · rw [hact2, hact]; push_cast; ring
    · rw [htc2, htc, wrapInt32_wrapInt32_add]
      congr 1
      push_cast
      ring

/-- The first request on a freshly constructed controller is admitted and
claims the turn. -/
theorem request_init (m : Int) (c : ThreadColor) :
    ∃ t, RequestAccess (FairResourceController.init m) c = some t ∧
      activeCount t (other c) = 0 ∧ waitingCount t (other c) = 0 ∧
      t.has_turn = true ∧ t.current_turn_color = c ∧
      activeCount t c = 1 ∧ t.turn_counter = 1 := by
  cases c
  · refine ⟨_, request_some_of_canAccess _ _ ?_, ?_⟩
    · simp [CanAccess, enterWaiting, FairResourceController.init]
    · simp [grantAccess, enterWaiting, FairResourceController.init, activeCount,
        waitingCount, other]
  · refine ⟨_, request_some_of_canAccess _ _ ?_, ?_⟩
    · simp [CanAccess, enterWaiting, FairResourceController.init]
    · simp [grantAccess, enterWaiting, FairResourceController.init, activeCount,
        waitingCount, other]

/-- On the freshly constructed controller `k + 1` consecutive requests of one
colour all return; the colour then has `k + 1` active holders and
`turn_counter` holds the 32-bit value of `k + 1`. -/
theorem requestN_init (m : Int) (c : ThreadColor) (k : Nat) :
    ∃ t, requestN (FairResourceController.init m) c (k + 1) = some t ∧
      activeCount t c = ((k + 1 : Nat) : Int) ∧
      t.turn_counter = wrapInt32 ((k : Int) + 1) := by
  obtain ⟨u, hu, ha1, hw1, ht1, hc1, hact, htc⟩ := request_init m c
  have hin : wrapInt32 u.turn_counter = u.turn_counter := by
    rw [htc]
    decide
  obtain ⟨t, ht2, hact2, htc2⟩ := requestN_uncontended c k u ha1 hw1 ht1 hc1 hin
  refine ⟨t, ?_, ?_, ?_⟩
  · simp [requestN, hu, ht2]
  · rw [hact2, hact]; push_cast; ring
  · rw [htc2, htc]
    congr 1
    ring

/-- C8 as stated fails for `n = 2^31`: the requests all return, but the 32-bit
`turn_counter` holds `-2147483648`, not `n`. -/
theorem uncontended_run_counterexample :
    ∃ t, requestN (FairResourceController.init 3) ThreadColor.White 2147483648 = some t ∧
      t.turn_counter = -2147483648 ∧
      t.turn_counter ≠ ((2147483648 : Nat) : Int) := by
  obtain ⟨t, h1, -, h3⟩ := requestN_init 3 ThreadColor.White 2147483647
  have e : wrapInt32 (((2147483647 : Nat) : Int) + 1) = -2147483648 := by decide
  rw [e] at h3
  refine ⟨t, h1, h3, ?_⟩
  rw [h3]
  decide

/-- C8, amended. An uncontended run is never capped: for every `max_per_turn`,
colour `c` and `1 ≤ n ≤ 2147483647`, `n` consecutive `RequestAccess(c)` calls on
the freshly constructed controller all return without blocking, and the final
state has `activeCount[c] = n` and `turn_counter = n`. -/
theorem uncontended_run (m : Int) (c : ThreadColor) (n : Nat) (hn : 1 ≤ n)
    (hmax : n ≤ 2147483647) :
    ∃ t, requestN (FairResourceController.init m) c n = some t ∧
      activeCount t c = n ∧ t.turn_counter = n := by
  obtain ⟨k, rfl⟩ : ∃ k, n = k + 1 := ⟨n - 1, by omega⟩
  obtain ⟨t, h1, h2, h3⟩ := requestN_init m c k
  refine ⟨t, h1, h2, ?_⟩
  rw [h3, wrapInt32_of_int32 _ (by omega) (by omega)]
  push_cast
  ring

/-- C8 amended, the scenario of the specification: limit 3, four White
requests, run length 4. -/
theorem uncontended_run_witness :
    (1 ≤ 4) ∧
      ∃ t, requestN (FairResourceController.init 3) ThreadColor.White 4 = some t ∧
        activeCount t ThreadColor.White = ((4 : Nat) : Int) ∧
        t.turn_counter = ((4 : Nat) : Int) :=
  ⟨by decide, uncontended_run 3 ThreadColor.White 4 (by decide) (by decide)⟩

/-- C9. Cap denial: when colour `c` has at least one active holder, the opposite
colour has no active holder but at least one waiter, and
`turn_counter >= max_per_turn`, `CanAccess(c)` is false and a further
`RequestAccess(c)` blocks. -/
theorem cap_denial (s : FairResourceController) (c : ThreadColor)
    (h1 : 1 ≤ activeCount s c) (h2 : activeCount s (other c) = 0)
    (h3 : 1 ≤ waitingCount s (other c)) (h4 : s.max_per_turn ≤ s.turn_counter) :
    CanAccess s c = false ∧ RequestAccess s c = none := by
  obtain ⟨wc, bc, ww, bw, tcol, ht, tc, mx⟩ := s
  cases c with
  | White =>
    simp only [activeCount, waitingCount, other] at h1 h2 h3 h4
    subst h2
    have e1 : ¬ wc = 0 := by omega
    have e2 : 0 < bw := by omega
    simp [CanAccess, RequestAccess, enterWaiting, e1, e2, h4]
  | Black =>
    simp only [activeCount, waitingCount, other] at h1 h2 h3 h4
    subst h2
    have e1 : ¬ bc = 0 := by omega
    have e2 : 0 < ww := by omega
    simp [CanAccess, RequestAccess, enterWaiting, e1, e2, h4]

/-- C9, the scenario of the specification: limit 2, White holds with run length
2, one Black caller waits. -/
theorem cap_denial_witness :
    CanAccess
        { white_count := 2, black_count := 0, white_waiting := 0, black_waiting := 1,
          current_turn_color := ThreadColor.White, has_turn := true, turn_counter := 2,
          max_per_turn := 2 }
        ThreadColor.White = false ∧
      RequestAccess
        { white_count := 2, black_count := 0, white_waiting := 0, black_waiting := 1,
          current_turn_color := ThreadColor.White, has_turn := true, turn_counter := 2,
          max_per_turn := 2 }
        ThreadColor.White = none :=
  cap_denial
    { white_count := 2, black_count := 0, white_waiting := 0, black_waiting := 1,
      current_turn_color := ThreadColor.White, has_turn := true, turn_counter := 2,
      max_per_turn := 2 }
    ThreadColor.White (by decide) (by decide) (by decide) (by decide)

/-- C10. Request on an idle resource: when both active counts and both waiting
counts are 0 and `has_turn = false`, whatever `turn_counter`,
`current_turn_color` and `max_per_turn` are, `RequestAccess(c)` returns without
blocking with `activeCount[c] = 1`, `waitingCount[c] = 0`, the turn claimed by
`c` with run length 1, and the opposite colour's counts still 0. -/
theorem request_on_idle (s : FairResourceController) (c : ThreadColor)
    (hwc : s.white_count = 0) (hbc : s.black_count = 0)
    (hww : s.white_waiting = 0) (hbw : s.black_waiting = 0) (ht : s.has_turn = false) :
    ∃ t, RequestAccess s c = some t ∧
      activeCount t c = 1 ∧ waitingCount t c = 0 ∧
      t.current_turn_color = c ∧ t.has_turn = true ∧ t.turn_counter = 1 ∧
      activeCount t (other c) = 0 ∧ waitingCount t (other c) = 0 := by
  obtain ⟨wc, bc, ww, bw, tcol, htn, tc, mx⟩ := s
  simp only at hwc hbc hww hbw ht
  subst hwc hbc hww hbw ht
  cases c
  · refine ⟨_, request_some_of_canAccess _ _ ?_, ?_⟩
    · simp [CanAccess, enterWaiting]
    · simp [grantAccess, enterWaiting, activeCount, waitingCount, other]
  · refine ⟨_, request_some_of_canAccess _ _ ?_, ?_⟩
    · simp [CanAccess, enterWaiting]
    · simp [grantAccess, enterWaiting, activeCount, waitingCount, other]

/-- C10, the scenario of the specification: a Black request on an idle
controller whose last turn was White's with run length 5. -/
theorem request_on_idle_witness :
    ∃ t,
      RequestAccess
          { white_count := 0, black_count := 0, white_waiting := 0, black_waiting := 0,
            current_turn_color := ThreadColor.White, has_turn := false, turn_counter := 5,
            max_per_turn := 3 }
          ThreadColor.Black = some t ∧
        activeCount t ThreadColor.Black = 1 ∧ waitingCount t ThreadColor.Black = 0 ∧
        t.current_turn_color = ThreadColor.Black ∧ t.has_turn = true ∧ t.turn_counter = 1 ∧
        activeCount t ThreadColor.White = 0 ∧ waitingCount t ThreadColor.White = 0 :=
  request_on_idle
    { white_count := 0, black_count := 0, white_waiting := 0, black_waiting := 0,
      current_turn_color := ThreadColor.White, has_turn := false, turn_counter := 5,
      max_per_turn := 3 }
    ThreadColor.Black rfl rfl rfl rfl rfl

/-- Bounded overtake before the counter wraps: with `1 ≤ m ≤ INT_MAX`, from a
reachable state whose `turn_counter` is not negative, in every run in which the
opposite colour has a waiter in every state visited and is never admitted, the
number of `Admit c` steps is at most `m`. -/
theorem bounded_overtake_before_wrap (m : Int) (s : FairResourceController)
    (c : ThreadColor) (acts : List Action) (tr : List FairResourceController)
    (hm : 1 ≤ m) (hm32 : m < 2147483648) (hr : Reachable m s) (h0 : 0 ≤ s.turn_counter)
    (hrun : runTrace s acts = some tr)
    (hwait : ∀ u ∈ tr, 0 < waitingCount u (other c))
    (hno : Action.Admit (other c) ∉ acts) :
    ((acts.count (Action.Admit c) : Nat) : Int) ≤ m :=
  le_trans (count_admit_le_budget c hm hm32 acts s tr (reachable_inv hr) hrun hwait hno)
    (budget_le_max c (reachable_inv hr) hm h0)

/-- C2 fails on the code after `turn_counter` has wrapped.  With limit 3 the
state below is reachable (one standing White holder, `2^31` admissions, then a
Black arrival); Black waits in every state of the run that follows, no Black
caller is admitted, and four White callers are admitted, more than the limit. -/
theorem bounded_overtake_fails_after_wrap :
    Reachable 3
        { white_count := 2, black_count := 0, white_waiting := 0, black_waiting := 1,
          current_turn_color := ThreadColor.White, has_turn := true,
          turn_counter := -2147483648, max_per_turn := 3 } ∧
      ∃ tr,
        runTrace
            { white_count := 2, black_count := 0, white_waiting := 0, black_waiting := 1,
              current_turn_color := ThreadColor.White, has_turn := true,
              turn_counter := -2147483648, max_per_turn := 3 }
            [Action.Arrive ThreadColor.White, Action.Admit ThreadColor.White,
              Action.Arrive ThreadColor.White, Action.Admit ThreadColor.White,
              Action.Arrive ThreadColor.White, Action.Admit ThreadColor.White,
              Action.Arrive ThreadColor.White, Action.Admit ThreadColor.White] = some tr ∧
          (∀ u ∈ tr, 0 < waitingCount u (other ThreadColor.White)) ∧
          Action.Admit (other ThreadColor.White) ∉
            [Action.Arrive ThreadColor.White, Action.Admit ThreadColor.White,
              Action.Arrive ThreadColor.White, Action.Admit ThreadColor.White,
              Action.Arrive ThreadColor.White, Action.Admit ThreadColor.White,
              Action.Arrive ThreadColor.White, Action.Admit ThreadColor.White] ∧
          ¬ ((([Action.Arrive ThreadColor.White, Action.Admit ThreadColor.White,
              Action.Arrive ThreadColor.White, Action.Admit ThreadColor.White,
              Action.Arrive ThreadColor.White, Action.Admit ThreadColor.White,
              Action.Arrive ThreadColor.White, Action.Admit ThreadColor.White].count
                (Action.Admit ThreadColor.White) : Nat) : Int) ≤ 3) :=
  ⟨reachable_exec
      [Action.Arrive ThreadColor.White, Action.Admit ThreadColor.White,
        Action.Arrive ThreadColor.Black]
      (reachable_int_max 3) (by decide),
    _, rfl, by decide, by decide, by decide⟩

/-- A step taken from a state with `turn_counter ≤ max_per_turn` while the colour
opposite to the turn colour has a waiter keeps `turn_counter ≤ max_per_turn`. -/
theorem cap_step {m : Int} {s t : FairResourceController} (a : Action)
    (hs : Inv m s) (hm : 1 ≤ m) (h0 : s.turn_counter ≤ m)
    (hw : 0 < waitingCount s (other s.current_turn_color)) (h : step s a = some t) :
    t.turn_counter ≤ m := by
  obtain ⟨h1, h2, h3, h4, h5, h6, h7, h8, hr32, h9⟩ := hs
  obtain ⟨wc, bc, ww, bw, tcol, ht, tc, mx⟩ := s
  dsimp only at h1 h2 h3 h4 h5 h6 h7 h8 hr32 h9 h0 hw
  subst h1
  cases a with
  | Arrive d =>
    cases d <;> simp [step, enterWaiting] at h <;> subst h <;> simpa using h0
  | Admit d =>
    cases d <;> cases tcol <;> cases ht <;>
      simp [step, grantAccess, CanAccess, waitingCount] at h <;>
      obtain ⟨hg, rfl⟩ := h <;>
      simp [activeCount, waitingCount, other] at h7 h8 h9 hw <;>
      simp [wrapInt32] <;>
      (try split_ifs at hg) <;> omega
  | Release d =>
    cases d <;>
      simp [step, ReleaseAccess, activeCount] at h <;>
      obtain ⟨hg, h⟩ := h <;>
      split_ifs at h <;> subst h <;> simp <;> omega

/-- C11 as stated fails: with `max_per_turn = 3`, after four uncontended White
admissions and the arrival of a Black caller, the Black caller's admission
decision is made while `waitingCount[other(turnColor)] = 1 > 0`; it denies, and
the state that follows has `turn_counter = 4 > 3`. -/
theorem run_length_cap_counterexample :
    ¬ ∀ (m : Int) (s : FairResourceController) (c : ThreadColor),
        1 ≤ m → Reachable m s → 0 < waitingCount s c →
        0 < waitingCount s (other s.current_turn_color) →
        (waitLoopTest s c).turn_counter ≤ (waitLoopTest s c).max_per_turn := by
  intro h
  have hr : Reachable 3
      { white_count := 4, black_count := 0, white_waiting := 0, black_waiting := 1,
        current_turn_color := ThreadColor.White, has_turn := true, turn_counter := 4,
        max_per_turn := 3 } :=
    reachable_exec
      [Action.Arrive ThreadColor.White, Action.Admit ThreadColor.White,
        Action.Arrive ThreadColor.White, Action.Admit ThreadColor.White,
        Action.Arrive ThreadColor.White, Action.Admit ThreadColor.White,
        Action.Arrive ThreadColor.White, Action.Admit ThreadColor.White,
        Action.Arrive ThreadColor.Black]
      Reachable.init (by decide)
  have h4 := h 3 _ ThreadColor.Black (by decide) hr (by decide) (by decide)
  revert h4
  decide

/-- Along a run in which the colour opposite to the turn colour always has a
waiter, a run length within the limit stays within the limit. -/
theorem cap_trace {m : Int} (hm : 1 ≤ m) (acts : List Action) :
    ∀ (s : FairResourceController) (tr : List FairResourceController),
      Inv m s → s.turn_counter ≤ m → runTrace s acts = some tr →
      (∀ u ∈ tr, 0 < waitingCount u (other u.current_turn_color)) →
      ∀ u ∈ tr, u.turn_counter ≤ m := by
  induction acts with
  | nil =>
    intro s tr _ h0 hrun _ u hu
    simp only [runTrace, Option.some.injEq] at hrun
    subst hrun
    simp only [List.mem_singleton] at hu
    exact hu ▸ h0
  | cons a as ih =>
    intro s tr hs h0 hrun hw u hu
    cases hst : step s a with
    | none => simp [runTrace, hst] at hrun
    | some t =>
      cases hrest : runTrace t as with
      | none => simp [runTrace, hst, hrest] at hrun
      | some tr1 =>
        simp only [runTrace, hst, hrest, Option.some.injEq] at hrun
        subst hrun
        rcases List.mem_cons.mp hu with hu1 | hu1
        · exact hu1 ▸ h0
        · have hws := hw s (List.mem_cons_self _ _)
          have ht := cap_step a hs hm h0 hws hst
          exact ih t tr1 (inv_step a hs hst) ht hrest
            (fun v hv => hw v (List.mem_cons_of_mem _ hv)) u hu1

/-- C11, amended. With `max_per_turn = m ≥ 1`, from a reachable state with
`turn_counter ≤ max_per_turn`, along every run in which the colour opposite to
the turn colour has a waiter in every state, `turn_counter ≤ max_per_turn` holds
in every state visited. -/
theorem run_length_cap_preserved (m : Int) (s : FairResourceController)
    (acts : List Action) (tr : List FairResourceController)
    (hm : 1 ≤ m) (hr : Reachable m s) (h0 : s.turn_counter ≤ s.max_per_turn)
    (hrun : runTrace s acts = some tr)
    (hw : ∀ u ∈ tr, 0 < waitingCount u (other u.current_turn_color)) :
    ∀ u ∈ tr, u.turn_counter ≤ u.max_per_turn := by
  have hi := reachable_inv hr
  have h0m : s.turn_counter ≤ m := hi.max_eq ▸ h0
  intro u hu
  have hu_le := cap_trace hm acts s tr hi h0m hrun hw u hu
  have hinv : ∀ (bs : List Action) (x : FairResourceController)
      (xs : List FairResourceController),
      Inv m x → runTrace x bs = some xs → ∀ v ∈ xs, v.max_per_turn = m := by
    intro bs
    induction bs with
    | nil =>
      intro x xs hx hrun1 v hv
      simp only [runTrace, Option.some.injEq] at hrun1
      subst hrun1
      simp only [List.mem_singleton] at hv
      exact hv ▸ hx.max_eq
    | cons b bs ih =>
      intro x xs hx hrun1 v hv
      cases hst : step x b with
      | none => simp [runTrace, hst] at hrun1
      | some y =>
        cases hrest : runTrace y bs with
        | none => simp [runTrace, hst, hrest] at hrun1
        | some ys =>
          simp only [runTrace, hst, hrest, Option.some.injEq] at hrun1
          subst hrun1
          rcases List.mem_cons.mp hv with hv1 | hv1
          · exact hv1 ▸ hx.max_eq
          · exact ih y ys (inv_step b hx hst) hrest v hv1
  rw [hinv acts s tr hi hrun u hu]
  exact hu_le

/-- C11 amended, with limit 2: White holds with run length 1 while a Black
caller waits; a second White caller arrives and is admitted, and the run length
stays within the limit. -/
theorem run_length_cap_preserved_witness :
    runTrace
        { white_count := 1, black_count := 0, white_waiting := 0, black_waiting := 1,
          current_turn_color := ThreadColor.White, has_turn := true, turn_counter := 1,
          max_per_turn := 2 }
        [Action.Arrive ThreadColor.White, Action.Admit ThreadColor.White] =
      some
        [{ white_count := 1, black_count := 0, white_waiting := 0, black_waiting := 1,
           current_turn_color := ThreadColor.White, has_turn := true, turn_counter := 1,
           max_per_turn := 2 },
         { white_count := 1, black_count := 0, white_waiting := 1, black_waiting := 1,
           current_turn_color := ThreadColor.White, has_turn := true, turn_counter := 1,
           max_per_turn := 2 },
         { white_count := 2, black_count := 0, white_waiting := 0, black_waiting := 1,
           current_turn_color := ThreadColor.White, has_turn := true, turn_counter := 2,
           max_per_turn := 2 }] ∧
      (2 : Int) ≤ 2 :=
  have hrun : runTrace
        { white_count := 1, black_count := 0, white_waiting := 0, black_waiting := 1,
          current_turn_color := ThreadColor.White, has_turn := true, turn_counter := 1,
          max_per_turn := 2 }
        [Action.Arrive ThreadColor.White, Action.Admit ThreadColor.White] =
      some
        [{ white_count := 1, black_count := 0, white_waiting := 0, black_waiting := 1,
           current_turn_color := ThreadColor.White, has_turn := true, turn_counter := 1,
           max_per_turn := 2 },
         { white_count := 1, black_count := 0, white_waiting := 1, black_waiting := 1,
           current_turn_color := ThreadColor.White, has_turn := true, turn_counter := 1,
           max_per_turn := 2 },
         { white_count := 2, black_count := 0, white_waiting := 0, black_waiting := 1,
           current_turn_color := ThreadColor.White, has_turn := true, turn_counter := 2,
           max_per_turn := 2 }] := by decide
  ⟨hrun,
    run_length_cap_preserved 2 _ _ _ (by decide)
      (reachable_exec
        [Action.Arrive ThreadColor.White, Action.Admit ThreadColor.White,
          Action.Arrive ThreadColor.Black]
        Reachable.init (by decide))
      (by decide) hrun (by decide)
      { white_count := 2, black_count := 0, white_waiting := 0, black_waiting := 1,
        current_turn_color := ThreadColor.White, has_turn := true, turn_counter := 2,
        max_per_turn := 2 }
      (by decide)⟩

/-- Effect of one step on a waiting count. -/
theorem waiting_step (s t : FairResourceController) (a : Action) (c : ThreadColor)
    (h : step s a = some t) :
    waitingCount t c =
      waitingCount s c + (if a = Action.Arrive c then 1 else 0) -
        (if a = Action.Admit c then 1 else 0) := by
  obtain ⟨wc, bc, ww, bw, tcol, ht, tc, mx⟩ := s
  cases a with
  | Arrive d =>
    cases d <;> cases c <;>
      simp [step, enterWaiting] at h <;> subst h <;> simp [waitingCount]
  | Admit d =>
    cases d <;> cases c <;> cases tcol <;> cases ht <;>
      simp [step, grantAccess, waitingCount] at h <;>
      obtain ⟨-, rfl⟩ := h <;> simp [waitingCount]
  | Release d =>
    cases d <;> cases c <;>
      simp [step, ReleaseAccess, activeCount] at h <;>
      obtain ⟨-, h⟩ := h <;>
      split_ifs at h <;> subst h <;> simp [waitingCount]

/-- Along a run a waiting count changes by the arrivals minus the admissions of
its colour. -/
theorem waiting_exec (c : ThreadColor) (acts : List Action) :
    ∀ s t : FairResourceController, exec s acts = some t →
      waitingCount t c =
        waitingCount s c + ((acts.count (Action.Arrive c) : Nat) : Int) -
          ((acts.count (Action.Admit c) : Nat) : Int) := by
  induction acts with
  | nil =>
    intro s t h
    simp only [exec, Option.some.injEq] at h
    subst h
    simp
  | cons a as ih =>
    intro s t h
    cases hst : step s a with
    | none => simp [exec, hst] at h
    | some u =>
      simp only [exec, hst] at h
      have h1 := ih u t h
      have h2 := waiting_step s u a c hst
      rw [List.count_cons, List.count_cons, h1, h2]
      have e1 : (a == Action.Arrive c) = decide (a = Action.Arrive c) := by
        by_cases hh : a = Action.Arrive c <;> simp [hh]
      have e2 : (a == Action.Admit c) = decide (a = Action.Admit c) := by
        by_cases hh : a = Action.Admit c <;> simp [hh]
      rw [e1, e2]
      by_cases ha : a = Action.Arrive c <;> by_cases hb : a = Action.Admit c <;>
        simp [ha, hb] <;> omega

theorem exec_snoc (acts : List Action) (a : Action) :
    ∀ s t u : FairResourceController, exec s acts = some t → step t a = some u →
      exec s (acts ++ [a]) = some u := by
  induction acts with
  | nil =>
    intro s t u h hst
    simp only [exec, Option.some.injEq] at h
    subst h
    simp [exec, hst]
  | cons b bs ih =>
    intro s t u h hst
    cases hb : step s b with
    | none => simp [exec, hb] at h
    | some v =>
      simp only [exec, hb] at h
      simp only [List.cons_append, exec, hb]
      exact ih v t u h hst

/-- Every reachable state is the result of a run from the constructor's state. -/
theorem exec_of_reachable {m : Int} {s : FairResourceController} (h : Reachable m s) :
    ∃ acts, exec (FairResourceController.init m) acts = some s := by
  induction h with
  | init => exact ⟨[], rfl⟩
  | step a _ hst ih =>
    obtain ⟨acts, hacts⟩ := ih
    exact ⟨acts ++ [a], exec_snoc acts a _ _ _ hacts hst⟩

/-- C12. Waiting-count accounting: after any run from the constructor's state,
`waitingCount[c]` is non-negative and equals the number of callers of `c` that
entered `RequestAccess` minus the number admitted; a step changes it by `+1`
exactly when it is an arrival of `c`, by `-1` exactly when it is an admission of
`c`, and not at all otherwise. -/
theorem waiting_accounting (m : Int) (acts : List Action) (s : FairResourceController)
    (c : ThreadColor) (h : exec (FairResourceController.init m) acts = some s) :
    0 ≤ waitingCount s c ∧
      waitingCount s c =
        ((acts.count (Action.Arrive c) : Nat) : Int) -
          ((acts.count (Action.Admit c) : Nat) : Int) ∧
      ∀ a t, step s a = some t →
        waitingCount t c =
          waitingCount s c + (if a = Action.Arrive c then 1 else 0) -
            (if a = Action.Admit c then 1 else 0) := by
  have hi := reachable_inv (reachable_exec acts Reachable.init h)
  refine ⟨?_, ?_, fun a t hst => waiting_step s t a c hst⟩
  · cases c
    · exact hi.white_waiting_nonneg
    · exact hi.black_waiting_nonneg
  · have := waiting_exec c acts _ _ h
    rw [this]
    cases c <;> simp [waitingCount, FairResourceController.init]

/-- C12, on the run where two White callers arrive and one of them is
admitted. -/
theorem waiting_accounting_witness :
    waitingCount
        { white_count := 1, black_count := 0, white_waiting := 1, black_waiting := 0,
          current_turn_color := ThreadColor.White, has_turn := true, turn_counter := 1,
          max_per_turn := 3 }
        ThreadColor.White =
      (([Action.Arrive ThreadColor.White, Action.Arrive ThreadColor.White,
          Action.Admit ThreadColor.White].count (Action.Arrive ThreadColor.White) : Nat) : Int) -
        (([Action.Arrive ThreadColor.White, Action.Arrive ThreadColor.White,
          Action.Admit ThreadColor.White].count (Action.Admit ThreadColor.White) : Nat) : Int) :=
  (waiting_accounting 3
    [Action.Arrive ThreadColor.White, Action.Arrive ThreadColor.White,
      Action.Admit ThreadColor.White]
    { white_count := 1, black_count := 0, white_waiting := 1, black_waiting := 0,
      current_turn_color := ThreadColor.White, has_turn := true, turn_counter := 1,
      max_per_turn := 3 }
    ThreadColor.White (by decide)).2.1

/-- C13 as stated fails: on the freshly constructed controller, where White has
no active holder, `ReleaseAccess(White)` returns normally with a modified state
(`white_count = -1`). -/
theorem misuse_reported_counterexample :
    activeCount (FairResourceController.init 3) ThreadColor.White = 0 ∧
      ReleaseAccess (FairResourceController.init 3) ThreadColor.White =
        { white_count := -1, black_count := 0, white_waiting := 0, black_waiting := 0,
          current_turn_color := ThreadColor.White, has_turn := false, turn_counter := 0,
          max_per_turn := 3 } ∧
      ReleaseAccess (FairResourceController.init 3) ThreadColor.White ≠
        FairResourceController.init 3 := by
  decide

/-- C13, amended. `ReleaseAccess` has no error outcome: for a colour with
`activeCount[c] = 0` it returns the state with `activeCount[c] = -1` and every
other field unchanged. -/
theorem release_without_holder (s : FairResourceController) (c : ThreadColor)
    (h : activeCount s c = 0) :
    activeCount (ReleaseAccess s c) c = -1 ∧
      activeCount (ReleaseAccess s c) (other c) = activeCount s (other c) ∧
      (ReleaseAccess s c).white_waiting = s.white_waiting ∧
      (ReleaseAccess s c).black_waiting = s.black_waiting ∧
      (ReleaseAccess s c).current_turn_color = s.current_turn_color ∧
      (ReleaseAccess s c).has_turn = s.has_turn ∧
      (ReleaseAccess s c).turn_counter = s.turn_counter ∧
      (ReleaseAccess s c).max_per_turn = s.max_per_turn := by
  obtain ⟨wc, bc, ww, bw, tcol, ht, tc, mx⟩ := s
  cases c <;> simp only [activeCount] at h <;> subst h <;>
    simp [ReleaseAccess, activeCount, other]

/-- C13 amended, on the freshly constructed controller. -/
theorem release_without_holder_witness :
    activeCount (ReleaseAccess (FairResourceController.init 3) ThreadColor.Black)
        ThreadColor.Black = -1 :=
  (release_without_holder (FairResourceController.init 3) ThreadColor.Black rfl).1

/-- C14. Release frame: `ReleaseAccess(c)` decrements `activeCount[c]` by one and
leaves both waiting counts, the opposite colour's active count and
`max_per_turn` unchanged; when `activeCount[c]` has not become 0 (in particular
when it is still positive) the turn colour, `has_turn` and `turn_counter` are
unchanged as well. -/
theorem release_frame (s : FairResourceController) (c : ThreadColor) :
    activeCount (ReleaseAccess s c) c = activeCount s c - 1 ∧
      activeCount (ReleaseAccess s c) (other c) = activeCount s (other c) ∧
      (ReleaseAccess s c).white_waiting = s.white_waiting ∧
      (ReleaseAccess s c).black_waiting = s.black_waiting ∧
      (ReleaseAccess s c).max_per_turn = s.max_per_turn ∧
      (activeCount s c - 1 ≠ 0 →
        (ReleaseAccess s c).current_turn_color = s.current_turn_color ∧
          (ReleaseAccess s c).has_turn = s.has_turn ∧
          (ReleaseAccess s c).turn_counter = s.turn_counter) := by
  obtain ⟨wc, bc, ww, bw, tcol, ht, tc, mx⟩ := s
  cases c <;> simp only [ReleaseAccess, activeCount, other] <;>
    split_ifs <;> simp_all

/-- C14, at a state with two White holders: the release keeps the turn fields. -/
theorem release_frame_witness :
    (ReleaseAccess
        { white_count := 2, black_count := 0, white_waiting := 0, black_waiting := 1,
          current_turn_color := ThreadColor.White, has_turn := true, turn_counter := 2,
          max_per_turn := 3 }
        ThreadColor.White).turn_counter = 2 :=
  ((release_frame
      { white_count := 2, black_count := 0, white_waiting := 0, black_waiting := 1,
        current_turn_color := ThreadColor.White, has_turn := true, turn_counter := 2,
        max_per_turn := 3 }
      ThreadColor.White).2.2.2.2.2 (by decide)).2.2

/-- C15. Contended admissions respect the cap: with `max_per_turn = m ≥ 1`, in a
reachable state, when a caller of `c` is admitted while the opposite colour has
at least one waiter, the state after the admission has
`turn_counter ≤ max_per_turn`. -/
theorem contended_admission_capped (m : Int) (s t : FairResourceController)
    (c : ThreadColor) (hm : 1 ≤ m) (hr : Reachable m s)
    (hw : 1 ≤ waitingCount s (other c)) (h : step s (Action.Admit c) = some t) :
    t.turn_counter ≤ t.max_per_turn := by
  obtain ⟨h1, h2, h3, h4, h5, h6, h7, h8, hr32, h9⟩ := reachable_inv hr
  obtain ⟨wc, bc, ww, bw, tcol, ht, tc, mx⟩ := s
  dsimp only at h1 h2 h3 h4 h5 h6 h7 h8 hr32 h9
  subst h1
  cases c <;> cases tcol <;> cases ht <;>
    simp [step, grantAccess, CanAccess, waitingCount] at h <;>
    obtain ⟨hg, rfl⟩ := h <;>
    simp [activeCount, waitingCount, other] at h7 h8 h9 hw <;>
    simp [wrapInt32] <;>
    (try split_ifs at hg) <;> omega

/-- C15, with limit 2: White holds with run length 1, a Black caller waits, and
a second White caller is admitted with run length 2. -/
theorem contended_admission_capped_witness :
    step
        { white_count := 1, black_count := 0, white_waiting := 1, black_waiting := 1,
          current_turn_color := ThreadColor.White, has_turn := true, turn_counter := 1,
          max_per_turn := 2 }
        (Action.Admit ThreadColor.White) =
      some
        { white_count := 2, black_count := 0, white_waiting := 0, black_waiting := 1,
          current_turn_color := ThreadColor.White, has_turn := true, turn_counter := 2,
          max_per_turn := 2 } ∧
      (2 : Int) ≤ 2 :=
  have hst : step
        { white_count := 1, black_count := 0, white_waiting := 1, black_waiting := 1,
          current_turn_color := ThreadColor.White, has_turn := true, turn_counter := 1,
          max_per_turn := 2 }
        (Action.Admit ThreadColor.White) =
      some
        { white_count := 2, black_count := 0, white_waiting := 0, black_waiting := 1,
          current_turn_color := ThreadColor.White, has_turn := true, turn_counter := 2,
          max_per_turn := 2 } := by decide
  ⟨hst,
    contended_admission_capped 2 _ _ ThreadColor.White (by decide)
      (reachable_exec
        [Action.Arrive ThreadColor.White, Action.Admit ThreadColor.White,
          Action.Arrive ThreadColor.Black, Action.Arrive ThreadColor.White]
        Reachable.init (by decide))
      (by decide) hst⟩

theorem switchedFrom_after_release {m : Int} {s : FairResourceController} {c : ThreadColor}
    (hr : Reachable m s) (h1 : activeCount s c = 1) (h2 : 1 ≤ waitingCount s (other c)) :
    SwitchedFrom c (ReleaseAccess s c) := by
  obtain ⟨-, -, -, -, -, h6, -, -, -, -⟩ := reachable_inv hr
  obtain ⟨wc, bc, ww, bw, tcol, ht, tc, mx⟩ := s
  cases c with
  | White =>
    simp only [activeCount, waitingCount, other] at h1 h2 h6
    have h3 : bc = 0 := by omega
    have h4 : 0 < bw := by omega
    subst h1 h3
    constructor <;> simp [ReleaseAccess, activeCount, waitingCount, other, h4]
    omega
  | Black =>
    simp only [activeCount, waitingCount, other] at h1 h2 h6
    have h3 : wc = 0 := by omega
    have h4 : 0 < ww := by omega
    subst h1 h3
    constructor <;> simp [ReleaseAccess, activeCount, waitingCount, other, h4]
    omega

theorem switchedFrom_denied {c : ThreadColor} {u : FairResourceController}
    (h : SwitchedFrom c u) : CanAccess u c = false := by
  obtain ⟨h1, h2, h3, h4, h5⟩ := h
  obtain ⟨wc, bc, ww, bw, tcol, ht, tc, mx⟩ := u
  dsimp only at h3 h4
  subst h3 h4
  cases c <;> simp only [activeCount, waitingCount, other] at h1 h2 h5 <;>
    subst h1 h2 <;> simp [CanAccess, other] <;> omega

theorem switchedFrom_granted {c : ThreadColor} {u : FairResourceController}
    (h : SwitchedFrom c u) : CanAccess u (other c) = true := by
  obtain ⟨h1, h2, h3, h4, h5⟩ := h
  obtain ⟨wc, bc, ww, bw, tcol, ht, tc, mx⟩ := u
  dsimp only at h3 h4
  subst h3 h4
  cases c <;> simp only [activeCount, waitingCount, other] at h1 h2 h5 <;>
    subst h1 h2 <;> simp [CanAccess, other]

/-- After a forced switch away from `c`, every enabled step other than an
admission of the opposite colour is an arrival, and it keeps the situation. -/
theorem switchedFrom_step {c : ThreadColor} {u v : FairResourceController} (a : Action)
    (h : SwitchedFrom c u) (hst : step u a = some v) (hne : a ≠ Action.Admit (other c)) :
    SwitchedFrom c v := by
  have hden := switchedFrom_denied h
  obtain ⟨h1, h2, h3, h4, h5⟩ := h
  obtain ⟨wc, bc, ww, bw, tcol, ht, tc, mx⟩ := u
  dsimp only at h3 h4
  subst h3 h4
  cases a with
  | Arrive d =>
    cases d <;> cases c <;> simp only [activeCount, waitingCount, other] at h1 h2 h5 <;>
      simp [step, enterWaiting] at hst <;> subst hst <;>
      constructor <;> simp [activeCount, waitingCount, other] <;> omega
  | Admit d =>
    cases d <;> cases c <;> simp [other] at hne <;>
      simp [step, hden] at hst
  | Release d =>
    cases d <;> cases c <;> simp only [activeCount, waitingCount, other] at h1 h2 h5 <;>
      simp [step, activeCount, h1, h2] at hst

theorem switchedFrom_trace (c : ThreadColor) (acts : List Action) :
    ∀ (u : FairResourceController) (tr : List FairResourceController),
      SwitchedFrom c u → runTrace u acts = some tr → Action.Admit (other c) ∉ acts →
      ∀ v ∈ tr, SwitchedFrom c v := by
  induction acts with
  | nil =>
    intro u tr hu hrun _ v hv
    simp only [runTrace, Option.some.injEq] at hrun
    subst hrun
    simp only [List.mem_singleton] at hv
    exact hv ▸ hu
  | cons a as ih =>
    intro u tr hu hrun hno v hv
    cases hst : step u a with
    | none => simp [runTrace, hst] at hrun
    | some w =>
      cases hrest : runTrace w as with
      | none => simp [runTrace, hst, hrest] at hrun
      | some tr1 =>
        simp only [runTrace, hst, hrest, Option.some.injEq] at hrun
        subst hrun
        have hne : a ≠ Action.Admit (other c) := by
          intro h
          exact hno (by simp [h])
        have hno1 : Action.Admit (other c) ∉ as := by
          intro h
          exact hno (List.mem_cons_of_mem _ h)
        rcases List.mem_cons.mp hv with hv1 | hv1
        · exact hv1 ▸ hu
        · exact ih w tr1 (switchedFrom_step a hu hst hne) hrest hno1 v hv1

/-- C16. No queue jumping after a forced switch: in a reachable state where `c`
has exactly one active holder and the opposite colour has a waiter, the state
produced by `ReleaseAccess(c)` has `CanAccess(c) = false` and
`CanAccess(other c) = true`, and `CanAccess(c)` is false in every state of every
run from there in which no caller of the opposite colour is admitted (the only
steps enabled in such a run are arrivals). -/
theorem no_queue_jumping (m : Int) (s : FairResourceController) (c : ThreadColor)
    (hr : Reachable m s) (h1 : activeCount s c = 1) (h2 : 1 ≤ waitingCount s (other c)) :
    CanAccess (ReleaseAccess s c) c = false ∧
      CanAccess (ReleaseAccess s c) (other c) = true ∧
      ∀ acts tr, runTrace (ReleaseAccess s c) acts = some tr →
        Action.Admit (other c) ∉ acts → ∀ u ∈ tr, CanAccess u c = false := by
  have hsw := switchedFrom_after_release hr h1 h2
  refine ⟨switchedFrom_denied hsw, switchedFrom_granted hsw, ?_⟩
  intro acts tr hrun hno u hu
  exact switchedFrom_denied (switchedFrom_trace c acts _ tr hsw hrun hno u hu)

/-- C16, with limit 3: White releases while a Black caller waits; White is
denied and Black is granted. -/
theorem no_queue_jumping_witness :
    CanAccess
        (ReleaseAccess
          { white_count := 1, black_count := 0, white_waiting := 0, black_waiting := 1,
            current_turn_color := ThreadColor.White, has_turn := true, turn_counter := 1,
            max_per_turn := 3 }
          ThreadColor.White)
        ThreadColor.White = false ∧
      CanAccess
        (ReleaseAccess
          { white_count := 1, black_count := 0, white_waiting := 0, black_waiting := 1,
            current_turn_color := ThreadColor.White, has_turn := true, turn_counter := 1,
            max_per_turn := 3 }
          ThreadColor.White)
        ThreadColor.Black = true :=
  have h := no_queue_jumping 3
    { white_count := 1, black_count := 0, white_waiting := 0, black_waiting := 1,
      current_turn_color := ThreadColor.White, has_turn := true, turn_counter := 1,
      max_per_turn := 3 }
    ThreadColor.White
    (reachable_exec
      [Action.Arrive ThreadColor.White, Action.Admit ThreadColor.White,
        Action.Arrive ThreadColor.Black]
      Reachable.init (by decide))
    (by decide) (by decide)
  ⟨h.1, h.2.1⟩

/-- The instrumented predicate returns the value of `CanAccess`. -/
theorem CanAccessBranch_fst (s : FairResourceController) (c : ThreadColor) :
    (CanAccessBranch s c).1 = CanAccess s c := by
  simp only [CanAccessBranch, CanAccess]
  split_ifs <;> rfl

/-- In every reachable state a colour with an active holder has the turn. -/
theorem holders_have_turn (m : Int) (s : FairResourceController) (c : ThreadColor)
    (hr : Reachable m s) (h : 0 < activeCount s c) :
    s.has_turn = true ∧ s.current_turn_color = c := by
  have hi := reachable_inv hr
  cases c with
  | White => exact hi.white_owns h
  | Black => exact hi.black_owns h

/-- C17 fails on the code after `turn_counter` has wrapped.  With limit 3 the
state below is reachable (one standing White holder, `2^31` admissions): White
has an active holder and owns the turn, but `turn_counter` is `-2147483648`,
below the number of active holders. -/
theorem holders_own_turn_fails_after_wrap :
    Reachable 3
        { white_count := 1, black_count := 0, white_waiting := 0, black_waiting := 0,
          current_turn_color := ThreadColor.White, has_turn := true,
          turn_counter := -2147483648, max_per_turn := 3 } ∧
      0 < activeCount
          { white_count := 1, black_count := 0, white_waiting := 0, black_waiting := 0,
            current_turn_color := ThreadColor.White, has_turn := true,
            turn_counter := -2147483648, max_per_turn := 3 }
          ThreadColor.White ∧
      ¬ (activeCount
          { white_count := 1, black_count := 0, white_waiting := 0, black_waiting := 0,
            current_turn_color := ThreadColor.White, has_turn := true,
            turn_counter := -2147483648, max_per_turn := 3 }
          ThreadColor.White ≤ (-2147483648 : Int)) :=
  ⟨reachable_int_min 3, by decide, by decide⟩

/-- C18. Broadcast only on release suffices: in a reachable state where
`CanAccess(c)` is false, it is still false after any `Arrive` step and after any
`Admit` step; so a step that turns it true is a `Release` step. -/
theorem blocked_until_release (m : Int) (s t : FairResourceController) (c : ThreadColor)
    (a : Action) (hr : Reachable m s) (hc : CanAccess s c = false)
    (h : step s a = some t) :
    ((∀ d, a ≠ Action.Release d) → CanAccess t c = false) ∧
      (CanAccess t c = true → ∃ d, a = Action.Release d) := by
  have key : (∀ d, a ≠ Action.Release d) → CanAccess t c = false := by
    intro hne
    obtain ⟨h1, h2, h3, h4, h5, h6, h7, h8, hr32, h9⟩ := reachable_inv hr
    obtain ⟨wc, bc, ww, bw, tcol, ht, tc, mx⟩ := s
    dsimp only at h1 h2 h3 h4 h5 h6 h7 h8 hr32 h9
    cases a with
    | Release d => exact absurd rfl (hne d)
    | Arrive d =>
      cases d <;> cases c <;> cases tcol <;> cases ht <;>
        simp [step, enterWaiting] at h <;>
        subst h <;>
        simp [activeCount, waitingCount] at h7 h8 h9 <;>
        simp [CanAccess] at hc ⊢ <;>
        (try split_ifs at hc) <;> (try split_ifs) <;> (try simp_all) <;> omega
    | Admit d =>
      cases d <;> cases c <;> cases tcol <;> cases ht <;>
        simp [step, grantAccess, CanAccess, waitingCount] at h hc <;>
        obtain ⟨hg, rfl⟩ := h <;>
        simp [activeCount, waitingCount] at h7 h8 h9 <;>
        simp [CanAccess] <;>
        (try split_ifs at hc hg) <;> (try split_ifs) <;> (try simp_all) <;> omega
  refine ⟨key, ?_⟩
  intro htrue
  by_contra hno
  have hne : ∀ d, a ≠ Action.Release d := fun d hd => hno ⟨d, hd⟩
  rw [key hne] at htrue
  exact Bool.false_ne_true htrue

/-- C18, with limit 3: White holds, a Black caller is blocked and stays blocked
when another Black caller arrives. -/
theorem blocked_until_release_witness :
    CanAccess
        { white_count := 1, black_count := 0, white_waiting := 0, black_waiting := 2,
          current_turn_color := ThreadColor.White, has_turn := true, turn_counter := 1,
          max_per_turn := 3 }
        ThreadColor.Black = false :=
  (blocked_until_release 3
      { white_count := 1, black_count := 0, white_waiting := 0, black_waiting := 1,
        current_turn_color := ThreadColor.White, has_turn := true, turn_counter := 1,
        max_per_turn := 3 }
      _ ThreadColor.Black (Action.Arrive ThreadColor.Black)
      (reachable_exec
        [Action.Arrive ThreadColor.White, Action.Admit ThreadColor.White,
          Action.Arrive ThreadColor.Black]
        Reachable.init (by decide))
      (by decide) (by decide)).1 (fun _ hd => Action.noConfusion hd)

/-- C19. No stuck state on an empty resource: in every reachable state in which
both active counts are 0 and some caller waits, `CanAccess` is true for a colour
that has a waiter. -/
theorem no_stuck_state (m : Int) (s : FairResourceController) (hr : Reachable m s)
    (hw : s.white_count = 0) (hb : s.black_count = 0)
    (hwait : 0 < s.white_waiting ∨ 0 < s.black_waiting) :
    ∃ c, 0 < waitingCount s c ∧ CanAccess s c = true := by
  obtain ⟨-, -, -, -, -, -, -, -, -, h9⟩ := reachable_inv hr
  obtain ⟨wc, bc, ww, bw, tcol, ht, tc, mx⟩ := s
  dsimp only at hw hb hwait h9
  subst hw hb
  cases ht with
  | false =>
    rcases hwait with h | h
    · exact ⟨ThreadColor.White, h, by simp [CanAccess]⟩
    · exact ⟨ThreadColor.Black, h, by simp [CanAccess]⟩
  | true =>
    cases tcol with
    | White =>
      have h := h9 rfl (by simp [activeCount])
      exact ⟨ThreadColor.White, h.2, by simp [CanAccess]⟩
    | Black =>
      have h := h9 rfl (by simp [activeCount])
      exact ⟨ThreadColor.Black, h.2, by simp [CanAccess]⟩

/-- C19, at the state after a forced switch: nobody holds the resource, the turn
is Black's and one Black and one White caller wait. -/
theorem no_stuck_state_witness :
    ∃ c,
      0 < waitingCount
          { white_count := 0, black_count := 0, white_waiting := 1, black_waiting := 1,
            current_turn_color := ThreadColor.Black, has_turn := true, turn_counter := 0,
            max_per_turn := 1 } c ∧
        CanAccess
          { white_count := 0, black_count := 0, white_waiting := 1, black_waiting := 1,
            current_turn_color := ThreadColor.Black, has_turn := true, turn_counter := 0,
            max_per_turn := 1 } c = true :=
  no_stuck_state 1 _
    (reachable_exec
      [Action.Arrive ThreadColor.White, Action.Admit ThreadColor.White,
        Action.Arrive ThreadColor.Black, Action.Arrive ThreadColor.White,
        Action.Release ThreadColor.White]
      Reachable.init (by decide))
    rfl rfl (by decide)

/-- C20. The steal branch is dead in reachable states: when `has_turn` is true
and the turn colour `d` has no active holder, then `waitingCount[d] > 0`,
`turn_counter = 0` and the other colour has no active holder; consequently
`CanAccess` never returns through the `other_waiting == 0` test of rule 2
(line 273). -/
theorem steal_branch_dead (m : Int) (s : FairResourceController) (hr : Reachable m s) :
    (s.has_turn = true → activeCount s s.current_turn_color = 0 →
        0 < waitingCount s s.current_turn_color ∧ s.turn_counter = 0 ∧
          activeCount s (other s.current_turn_color) = 0) ∧
      ∀ c, (CanAccessBranch s c).2 ≠ AccessBranch.steal := by
  obtain ⟨-, h2, h3, h4, h5, h6, h7, h8, -, h9⟩ := reachable_inv hr
  obtain ⟨wc, bc, ww, bw, tcol, ht, tc, mx⟩ := s
  dsimp only at h2 h3 h4 h5 h6 h7 h8 h9
  constructor
  · intro hturn hact
    dsimp only at hturn
    subst hturn
    have h := h9 rfl hact
    cases tcol <;> simp [activeCount, waitingCount, other] at h h7 h8 hact ⊢ <;> omega
  · intro c
    cases c <;> cases tcol <;> cases ht <;>
      simp [activeCount, waitingCount] at h7 h8 h9 <;>
      simp [CanAccessBranch] <;> split_ifs <;> simp <;> omega

/-- C20, at the state after a forced switch to Black. -/
theorem steal_branch_dead_witness :
    (CanAccessBranch
        { white_count := 0, black_count := 0, white_waiting := 1, black_waiting := 1,
          current_turn_color := ThreadColor.Black, has_turn := true, turn_counter := 0,
          max_per_turn := 1 } ThreadColor.White).2 ≠ AccessBranch.steal :=
  (steal_branch_dead 1 _
    (reachable_exec
      [Action.Arrive ThreadColor.White, Action.Admit ThreadColor.White,
        Action.Arrive ThreadColor.Black, Action.Arrive ThreadColor.White,
        Action.Release ThreadColor.White]
      Reachable.init (by decide))).2 ThreadColor.White

end Lab7
